import Mathlib

/-!
Verification of the FlintMC test-orchestration engine (Rust sources
`src/test_spec.rs`, `src/main.rs`, `src/executor.rs`) against its
natural-language specification.

Shallow embedding conventions:
* Rust `[i32; 3]` positions become `Vec3` over unbounded `Int`
  (the engine's coordinates stay far from the `i32` boundaries; overflow
  wrapping is not modelled).
* Rust `String` values become `List Char`; Rust's ASCII-relevant
  `to_lowercase`, `replace("_", "")`, `trim_start_matches` and substring
  `contains` are modelled character-exactly on those lists.
* `usize`/`u32` indices and tick numbers become `Nat`.
* The `f64` computation `(total as f64).sqrt().ceil() as i32` in
  `calculate_test_offset` is modelled by the exact integer ceiling of the
  real square root (`ceilSqrt`); IEEE-754 `sqrt` is correctly rounded, so
  the two agree for every `total` below `2^52`.
* The world-control channel (`bot.rs`) is external; queries issued by the
  retry-poll engine are modelled by an oracle `Nat → Option (List Char)`
  giving the observation returned by the k-th query.
-/

namespace FlintMC

/-- Coordinate triple modelling the Rust `[i32; 3]` position arrays. -/
structure Vec3 where
  x : Int
  y : Int
  z : Int
deriving DecidableEq

/-- Rust strings, modelled as their character lists. -/
abbrev Str := List Char

/-- Model of `TickSpec` from `test_spec.rs`: one tick or an ordered list of ticks. -/
inductive TickSpec where
  | single (t : Nat)
  | multiple (ts : List Nat)
deriving DecidableEq

/-- Embedding of `TickSpec::to_vec` from `test_spec.rs` lines 47-54. -/
def TickSpec.to_vec : TickSpec → List Nat
  | .single t => [t]
  | .multiple v => v

/-- Model of `BlockPlacement` from `test_spec.rs`. -/
structure BlockPlacement where
  pos : Vec3
  block : Str
deriving DecidableEq

/-- Model of `BlockCheck` from `test_spec.rs`. -/
structure BlockCheck where
  pos : Vec3
  is : Str
deriving DecidableEq

/-- Model of `ActionType` from `test_spec.rs` lines 56-81. -/
inductive ActionType where
  | place (pos : Vec3) (block : Str)
  | placeEach (blocks : List BlockPlacement)
  | fill (region : Vec3 × Vec3) (w : Str)
  | remove (pos : Vec3)
  | assert (checks : List BlockCheck)
  | assertState (pos : Vec3) (state : Str) (values : List Str)
deriving DecidableEq

/-- Model of `TimelineEntry` from `test_spec.rs`: a tick schedule paired with one
action (the cosmetic `do` label is dropped). -/
structure TimelineEntry where
  at_ : TickSpec
  action : ActionType
deriving DecidableEq

/-- Model of `TestSpec` from `test_spec.rs` (informational fields dropped); `setup`
holds the cleanup region corners `(min, max)` when present. -/
structure TestSpec where
  name : Str
  setup : Option (Vec3 × Vec3)
  timeline : List TimelineEntry
deriving DecidableEq

/-! ## Tick expansion (executor.rs lines 188-196)

`run_tests_parallel` expands each entry by
`for (value_idx, tick) in ticks.iter().enumerate()`, scheduling the pair
`(tick, value_idx)` for each position of the tick list. -/

/-- Expansion of one entry's tick schedule into `(tick, valueIndex)` pairs,
in list order, exactly as the executor's `enumerate` loop produces them. -/
def expand (ts : TickSpec) : List (Nat × Nat) :=
  ts.to_vec.enum.map (fun p => (p.2, p.1))

theorem expand_single (t : Nat) : expand (.single t) = [(t, 0)] := rfl

theorem expand_length (ts : TickSpec) : (expand ts).length = ts.to_vec.length := by
  simp [expand]

theorem expand_get? (l : List Nat) (i t : Nat) (h : l.get? i = some t) :
    (expand (.multiple l)).get? i = some (t, i) := by
  rw [List.get?_eq_getElem?] at h
  simp [expand, TickSpec.to_vec, List.getElem?_map, List.getElem?_enum, h]

/-- C1: Tick expansion pairs ticks with value indices positionally: a
single-tick spec expands to the one pair `(t, 0)`; a multi-tick spec with
tick list `l` expands to `l.length` pairs whose `i`-th element is
`(l[i], i)`; and the tick list `[0,5,10]` paired with AssertState values
`["0","5","10"]` yields exactly `(0,"0"), (5,"5"), (10,"10")` in order. -/
theorem tick_expansion_positional :
    (∀ t : Nat, expand (.single t) = [(t, 0)]) ∧
    (∀ l : List Nat, (expand (.multiple l)).length = l.length ∧
      ∀ i t : Nat, l.get? i = some t → (expand (.multiple l)).get? i = some (t, i)) ∧
    ((expand (.multiple [0, 5, 10])).map
        (fun p => (p.1, (["0".data, "5".data, "10".data].getD p.2 []))) =
      [(0, "0".data), (5, "5".data), (10, "10".data)]) := by
  refine ⟨expand_single, fun l => ⟨by simp [expand, TickSpec.to_vec], ?_⟩, by decide⟩
  intro i t h
  exact expand_get? l i t h

/-- Witness for C1: instantiates the positional-indexing clause at the tick
list `[0,5,10]`, index `1`. -/
theorem tick_expansion_positional_witness :
    (expand (.multiple [0, 5, 10])).get? 1 = some (5, 1) :=
  tick_expansion_positional.2.1 [0, 5, 10] |>.2 1 5 (by decide)

/-! ## Grid offset calculator (main.rs lines 161-180)

`calculate_test_offset` computes `grid_size = (total as f64).sqrt().ceil() as
i32`; `ceilSqrt` below is the exact integer ceiling of the real square root,
which the correctly-rounded `f64` computation equals for every `total < 2^52`.
Rust's `i32` `%` and `/` are truncating (`Int.tmod` / `Int.tdiv`). -/

/-- Integer ceiling of the square root, via `Nat.sqrt`. -/
def ceilSqrt (n : Nat) : Nat := if n = 0 then 0 else Nat.sqrt (n - 1) + 1

theorem le_ceilSqrt_sq (n : Nat) : n ≤ ceilSqrt n * ceilSqrt n := by
  unfold ceilSqrt
  split
  · omega
  · have h := Nat.sqrt_lt.mp (Nat.lt_succ_self (Nat.sqrt (n - 1)))
    simp only [Nat.succ_eq_add_one] at h
    omega

theorem ceilSqrt_le {n k : Nat} (h : n ≤ k * k) : ceilSqrt n ≤ k := by
  unfold ceilSqrt
  split
  · omega
  · have h2 : Nat.sqrt (n - 1) < k := Nat.sqrt_lt.mpr (by omega)
    omega

/-- Embedding of `calculate_test_offset` from `main.rs` lines 161-180. -/
def calculate_test_offset (test_index total_tests : Nat) : Vec3 :=
  let cell : Int := 16
  let grid_size : Int := (ceilSqrt total_tests : Int)
  let grid_x : Int := Int.tmod (test_index : Int) grid_size
  let grid_z : Int := Int.tdiv (test_index : Int) grid_size
  let base_offset : Int := Int.tdiv (-(grid_size * cell)) 2
  ⟨base_offset + grid_x * cell, 0, base_offset + grid_z * cell⟩

/-- Modelled from the spec: `side = ceil(sqrt(total))`, rendered as the least
`k` with `total ≤ k²`. -/
def specSide (total : Nat) : Nat :=
  Nat.find (show ∃ k, total ≤ k * k from ⟨total, by nlinarith⟩)

/-- Modelled from the spec: the reference offset of §4.3 — `cell = 16`,
`side = ceil(sqrt(total))`, `base = -(side*cell)/2` under truncating integer
division, `gx = index mod side`, `gz = index div side`,
`offset = (base + gx*cell, 0, base + gz*cell)`. -/
def specOffset (index total : Nat) : Vec3 :=
  let side : Nat := specSide total
  let gx : Nat := index % side
  let gz : Nat := index / side
  let base : Int := Int.tdiv (-((side : Int) * 16)) 2
  ⟨base + (gx : Int) * 16, 0, base + (gz : Int) * 16⟩

theorem ceilSqrt_eq_k {n k : Nat} (hk : 1 ≤ k) (h1 : n ≤ k * k)
    (h2 : (k - 1) * (k - 1) < n) : ceilSqrt n = k := by
  have hle := ceilSqrt_le h1
  have hln := le_ceilSqrt_sq n
  by_contra hne
  have hc : ceilSqrt n ≤ k - 1 := by omega
  have := Nat.mul_le_mul hc hc
  omega

theorem ceilSqrt_eq_specSide (n : Nat) : ceilSqrt n = specSide n := by
  rw [specSide, eq_comm, Nat.find_eq_iff]
  exact ⟨le_ceilSqrt_sq n, fun m hm hc => absurd (ceilSqrt_le hc) (by omega)⟩

theorem tmod_cast (m n : Nat) : Int.tmod (m : Int) (n : Int) = ((m % n : Nat) : Int) := rfl

theorem tdiv_cast (m n : Nat) : Int.tdiv (m : Int) (n : Int) = ((m / n : Nat) : Int) := rfl

/-- C3: for every `index < total` the computed grid offset equals the spec's
reference definition, and for `total = 4` the offsets of indices 0..3 are
`[-16,0,-16]`, `[0,0,-16]`, `[-16,0,0]`, `[0,0,0]` in order. -/
theorem grid_offset_matches_reference :
    (∀ index total : Nat, index < total →
      calculate_test_offset index total = specOffset index total) ∧
    ((List.range 4).map (fun i => calculate_test_offset i 4) =
      [⟨-16, 0, -16⟩, ⟨0, 0, -16⟩, ⟨-16, 0, 0⟩, ⟨0, 0, 0⟩]) := by
  constructor
  · intro index total _
    simp only [calculate_test_offset, specOffset, ← ceilSqrt_eq_specSide, tmod_cast, tdiv_cast]
  · have h4 : ceilSqrt 4 = 2 := ceilSqrt_eq_k (by norm_num) (by norm_num) (by norm_num)
    simp only [calculate_test_offset, h4]
    decide

/-- Witness for C3: the equality clause instantiated at `index = 2`,
`total = 4`. -/
theorem grid_offset_matches_reference_witness :
    calculate_test_offset 2 4 = specOffset 2 4 :=
  grid_offset_matches_reference.1 2 4 (by decide)

/-- The 15×15 x/z footprint anchored at an offset. -/
def inFootprint (off : Vec3) (x z : Int) : Prop :=
  off.x ≤ x ∧ x ≤ off.x + 14 ∧ off.z ≤ z ∧ z ≤ off.z + 14

theorem grid_coords_ne {s i j : Nat} (h : i ≠ j) : i % s ≠ j % s ∨ i / s ≠ j / s := by
  by_contra hc
  push_neg at hc
  obtain ⟨h1, h2⟩ := hc
  have hi := Nat.div_add_mod i s
  have hj := Nat.div_add_mod j s
  rw [h1, h2] at hi
  omega

theorem sep16 {a b : Nat} (h : a ≠ b) : 16 ≤ |(a : Int) * 16 - (b : Int) * 16| := by
  rw [le_abs]
  omega

/-- C4: for `total ≥ 1` and distinct indices `i, j < total`, the computed
offsets are distinct, differ by at least 16 in the x or the z component, and
the two 15×15 x/z footprints anchored at them are disjoint. -/
theorem grid_offsets_disjoint :
    ∀ total i j : Nat, 1 ≤ total → i < total → j < total → i ≠ j →
      calculate_test_offset i total ≠ calculate_test_offset j total ∧
      (16 ≤ |(calculate_test_offset i total).x - (calculate_test_offset j total).x| ∨
        16 ≤ |(calculate_test_offset i total).z - (calculate_test_offset j total).z|) ∧
      ∀ x z : Int, ¬(inFootprint (calculate_test_offset i total) x z ∧
        inFootprint (calculate_test_offset j total) x z) := by
  intro total i j _ _ _ hij
  have hsep : 16 ≤ |(calculate_test_offset i total).x - (calculate_test_offset j total).x| ∨
      16 ≤ |(calculate_test_offset i total).z - (calculate_test_offset j total).z| := by
    simp only [calculate_test_offset, tmod_cast, tdiv_cast, add_sub_add_left_eq_sub]
    rcases grid_coords_ne (s := ceilSqrt total) hij with h | h
    · exact Or.inl (sep16 h)
    · exact Or.inr (sep16 h)
  refine ⟨?_, hsep, ?_⟩
  · intro heq
    rw [heq] at hsep
    simp at hsep
  · intro x z ⟨hf1, hf2⟩
    simp only [inFootprint] at hf1 hf2
    rcases hsep with h | h <;> rw [le_abs] at h <;> omega

/-- Witness for C4: instantiated at `total = 4`, `i = 0`, `j = 3`, with the
footprint-disjointness clause applied at the point `(x, z) = (-16, -16)`. -/
theorem grid_offsets_disjoint_witness :
    calculate_test_offset 0 4 ≠ calculate_test_offset 3 4 ∧
    ¬(inFootprint (calculate_test_offset 0 4) (-16) (-16) ∧
      inFootprint (calculate_test_offset 3 4) (-16) (-16)) := by
  have h := grid_offsets_disjoint 4 0 3 (by decide) (by decide) (by decide) (by decide)
  exact ⟨h.1, h.2.2 (-16) (-16)⟩

/-! ## Validation (test_spec.rs lines 95-213)

`TestSpec::validate` requires a setup section, checks `min ≤ max`
component-wise, checks the region's width/height/depth against the fixed
maxima 15/384/15, and then checks every coordinate referenced by the
timeline against the region, in timeline order, stopping at the first
violation. Errors are `anyhow` messages in the source; each distinct
message becomes one `ValidationError` constructor carrying exactly the
data the message interpolates. -/

/-- The validation errors raised by `TestSpec::validate`, one constructor
per distinct `bail!` message. -/
inductive ValidationError where
  | missingSetup (name : Str)
  | invalidRegion (name : Str) (rmin rmax : Vec3)
  | regionTooLargeWidth (name : Str) (width : Int)
  | regionTooLargeHeight (name : Str) (height : Int)
  | regionTooLargeDepth (name : Str) (depth : Int)
  | positionOutOfBounds (name : Str) (pos rmin rmax : Vec3)
deriving DecidableEq

/-- Embedding of `TestSpec::validate_position` from `test_spec.rs` lines 197-213. -/
def validate_position (name : Str) (pos rmin rmax : Vec3) : Except ValidationError Unit :=
  if pos.x < rmin.x ∨ pos.x > rmax.x ∨
      pos.y < rmin.y ∨ pos.y > rmax.y ∨
      pos.z < rmin.z ∨ pos.z > rmax.z then
    .error (.positionOutOfBounds name pos rmin rmax)
  else
    .ok ()

/-- The coordinates an action references, in the order
`TestSpec::validate` checks them (lines 165-192). -/
def entryPositions : ActionType → List Vec3
  | .place pos _ => [pos]
  | .placeEach blocks => blocks.map (·.pos)
  | .fill region _ => [region.1, region.2]
  | .remove pos => [pos]
  | .assert checks => checks.map (·.pos)
  | .assertState pos _ _ => [pos]

/-- The per-position loop of `TestSpec::validate`: check each coordinate in
order, returning the first error. -/
def validateAll (name : Str) (ps : List Vec3) (rmin rmax : Vec3) :
    Except ValidationError Unit :=
  match ps with
  | [] => .ok ()
  | p :: rest =>
    match validate_position name p rmin rmax with
    | .ok _ => validateAll name rest rmin rmax
    | .error e => .error e

/-- Every coordinate referenced anywhere in a spec's timeline, in
validation order. -/
def referencedPositions (s : TestSpec) : List Vec3 :=
  s.timeline.flatMap (fun e => entryPositions e.action)

/-- Embedding of `TestSpec::validate` from `test_spec.rs` lines 123-195. -/
def validate (s : TestSpec) : Except ValidationError Unit :=
  match s.setup with
  | none => .error (.missingSetup s.name)
  | some (rmin, rmax) =>
    if rmin.x > rmax.x ∨ rmin.y > rmax.y ∨ rmin.z > rmax.z then
      .error (.invalidRegion s.name rmin rmax)
    else if rmax.x - rmin.x + 1 > 15 then
      .error (.regionTooLargeWidth s.name (rmax.x - rmin.x + 1))
    else if rmax.y - rmin.y + 1 > 384 then
      .error (.regionTooLargeHeight s.name (rmax.y - rmin.y + 1))
    else if rmax.z - rmin.z + 1 > 15 then
      .error (.regionTooLargeDepth s.name (rmax.z - rmin.z + 1))
    else
      validateAll s.name (referencedPositions s) rmin rmax

/-- Component-wise membership of a coordinate in the `[min, max]` box. -/
def inBox (p rmin rmax : Vec3) : Prop :=
  rmin.x ≤ p.x ∧ p.x ≤ rmax.x ∧ rmin.y ≤ p.y ∧ p.y ≤ rmax.y ∧
    rmin.z ≤ p.z ∧ p.z ≤ rmax.z

instance (p rmin rmax : Vec3) : Decidable (inBox p rmin rmax) := by
  unfold inBox
  infer_instance

theorem validate_position_ok_iff (name : Str) (p rmin rmax : Vec3) :
    validate_position name p rmin rmax = .ok () ↔ inBox p rmin rmax := by
  unfold validate_position inBox
  split <;> rename_i h <;> simp <;> omega

theorem validate_position_err (name : Str) {p rmin rmax : Vec3}
    (h : ¬ inBox p rmin rmax) :
    validate_position name p rmin rmax = .error (.positionOutOfBounds name p rmin rmax) := by
  unfold validate_position
  unfold inBox at h
  split
  · rfl
  · rename_i hc
    exact absurd (by omega) h

instance exceptDecEq {ε α : Type} [DecidableEq ε] [DecidableEq α] :
    DecidableEq (Except ε α)
  | .error a, .error b =>
    if h : a = b then .isTrue (by rw [h])
    else .isFalse (by intro hc; injection hc with h2; exact h h2)
  | .error _, .ok _ => .isFalse (fun hc => by injection hc)
  | .ok _, .error _ => .isFalse (fun hc => by injection hc)
  | .ok a, .ok b =>
    if h : a = b then .isTrue (by rw [h])
    else .isFalse (by intro hc; injection hc with h2; exact h h2)

theorem validateAll_ok_iff (name : Str) (ps : List Vec3) (rmin rmax : Vec3) :
    validateAll name ps rmin rmax = .ok () ↔ ∀ p ∈ ps, inBox p rmin rmax := by
  induction ps with
  | nil => simp [validateAll]
  | cons p rest ih =>
    unfold validateAll
    by_cases hp : inBox p rmin rmax
    · rw [(validate_position_ok_iff name p rmin rmax).mpr hp]
      simp only [List.mem_cons, forall_eq_or_imp]
      rw [ih]
      simp [hp]
    · rw [validate_position_err name hp]
      simp only [List.mem_cons, forall_eq_or_imp]
      constructor
      · intro hc
        simp at hc
      · rintro ⟨hpb, -⟩
        exact absurd hpb hp

theorem validateAll_first_err (name : Str) (ps : List Vec3) (rmin rmax : Vec3)
    (h : ∃ p ∈ ps, ¬ inBox p rmin rmax) :
    ∃ q ∈ ps, ¬ inBox q rmin rmax ∧
      validateAll name ps rmin rmax = .error (.positionOutOfBounds name q rmin rmax) := by
  induction ps with
  | nil => simp at h
  | cons p rest ih =>
    by_cases hp : inBox p rmin rmax
    · obtain ⟨q, hq, hqb⟩ := h
      rcases List.mem_cons.mp hq with rfl | hq'
      · exact absurd hp hqb
      · obtain ⟨r, hr, hrb, hre⟩ := ih ⟨q, hq', hqb⟩
        refine ⟨r, List.mem_cons_of_mem p hr, hrb, ?_⟩
        unfold validateAll
        rw [(validate_position_ok_iff name p rmin rmax).mpr hp]
        exact hre
    · refine ⟨p, List.mem_cons_self p rest, hp, ?_⟩
      unfold validateAll
      rw [validate_position_err name hp]

/-- Spec used to refute C2 as stated: its cleanup region is too wide
(width 21 > 15) and its one referenced coordinate `[30,0,0]` lies outside
the region, yet validation rejects it with the `RegionTooLarge` error,
which names no position. -/
def wideSpec : TestSpec :=
  { name := "t".data
    setup := some (⟨0, 0, 0⟩, ⟨20, 0, 0⟩)
    timeline := [{ at_ := .single 0, action := .place ⟨30, 0, 0⟩ "stone".data }] }

/-- Counterexample for C2: `wideSpec` references the out-of-box coordinate
`[30,0,0]`, but `validate` rejects it with `RegionTooLarge` (width 21), not
with an error naming the offending position and the region. -/
theorem validate_rejection_counterexample :
    (⟨30, 0, 0⟩ : Vec3) ∈ referencedPositions wideSpec ∧
    ¬ inBox ⟨30, 0, 0⟩ ⟨0, 0, 0⟩ ⟨20, 0, 0⟩ ∧
    wideSpec.setup = some (⟨0, 0, 0⟩, ⟨20, 0, 0⟩) ∧
    validate wideSpec = .error (.regionTooLargeWidth "t".data 21) ∧
    validate wideSpec ≠
      .error (.positionOutOfBounds "t".data ⟨30, 0, 0⟩ ⟨0, 0, 0⟩ ⟨20, 0, 0⟩) := by
  refine ⟨by decide, by decide, rfl, by decide, by decide⟩

/-- C2 (amended): `validate` accepts a spec only if every coordinate
referenced anywhere in its timeline lies component-wise within the cleanup
region's `[min, max]` box; and when the region itself passes the earlier
checks (min ≤ max component-wise and width/height/depth within 15/384/15),
a spec referencing a coordinate outside the box is rejected with a
`PositionOutOfBounds` error naming an offending (out-of-box, referenced)
position and the region. -/
theorem validate_containment :
    (∀ (s : TestSpec) (rmin rmax : Vec3), s.setup = some (rmin, rmax) →
      validate s = .ok () → ∀ p ∈ referencedPositions s, inBox p rmin rmax) ∧
    (∀ (s : TestSpec) (rmin rmax : Vec3), s.setup = some (rmin, rmax) →
      rmin.x ≤ rmax.x → rmin.y ≤ rmax.y → rmin.z ≤ rmax.z →
      rmax.x - rmin.x + 1 ≤ 15 → rmax.y - rmin.y + 1 ≤ 384 → rmax.z - rmin.z + 1 ≤ 15 →
      ∀ p ∈ referencedPositions s, ¬ inBox p rmin rmax →
        ∃ q ∈ referencedPositions s, ¬ inBox q rmin rmax ∧
          validate s = .error (.positionOutOfBounds s.name q rmin rmax)) := by
  constructor
  · intro s rmin rmax hset hok p hp
    simp only [validate, hset] at hok
    split_ifs at hok
    exact (validateAll_ok_iff s.name (referencedPositions s) rmin rmax).mp hok p hp
  · intro s rmin rmax hset h1 h2 h3 h4 h5 h6 p hp hpb
    obtain ⟨q, hq, hqb, hqe⟩ :=
      validateAll_first_err s.name (referencedPositions s) rmin rmax ⟨p, hp, hpb⟩
    refine ⟨q, hq, hqb, ?_⟩
    simp only [validate, hset]
    split_ifs with c1 c2 c3 c4
    · omega
    · omega
    · omega
    · omega
    · exact hqe

/-- Spec with a valid region whose one referenced coordinate `[99,0,0]`
lies outside it; used to witness C2's rejection clause. -/
def straySpec : TestSpec :=
  { name := "b".data
    setup := some (⟨0, 0, 0⟩, ⟨14, 0, 14⟩)
    timeline := [{ at_ := .single 0, action := .remove ⟨99, 0, 0⟩ }] }

/-- Spec whose referenced coordinates all lie inside its region; used to
witness C2's acceptance clause. -/
def containedSpec : TestSpec :=
  { name := "a".data
    setup := some (⟨0, 0, 0⟩, ⟨14, 0, 14⟩)
    timeline := [{ at_ := .single 0, action := .place ⟨3, 0, 3⟩ "stone".data }] }

/-- Witness for C2: both clauses instantiated on concrete specs. -/
theorem validate_containment_witness :
    inBox ⟨3, 0, 3⟩ ⟨0, 0, 0⟩ ⟨14, 0, 14⟩ ∧
    validate straySpec =
      .error (.positionOutOfBounds "b".data ⟨99, 0, 0⟩ ⟨0, 0, 0⟩ ⟨14, 0, 14⟩) := by
  constructor
  · exact validate_containment.1 containedSpec ⟨0, 0, 0⟩ ⟨14, 0, 14⟩ rfl (by decide)
      ⟨3, 0, 3⟩ (by decide)
  · obtain ⟨q, hq, hqb, hqe⟩ := validate_containment.2 straySpec ⟨0, 0, 0⟩ ⟨14, 0, 14⟩ rfl
      (by decide) (by decide) (by decide) (by decide) (by decide) (by decide)
      ⟨99, 0, 0⟩ (by decide) (by decide)
    have hq99 : q = ⟨99, 0, 0⟩ := by
      simpa [straySpec, referencedPositions, entryPositions] using hq
    rw [hq99] at hqe
    exact hqe

/-! ## String primitives used by the executor's comparisons

Character-exact models of the Rust string operations that appear in
`executor.rs`: `str::contains` (substring test), ASCII `to_lowercase`,
`replace("_", "")`, and `trim_start_matches("minecraft:")` (which strips
the pattern repeatedly). -/

/-- Test that `s` starts with the pattern `p` (`str::starts_with`). -/
def startsWithL : Str → Str → Bool
  | _, [] => true
  | [], _ :: _ => false
  | a :: as, b :: bs => a = b && startsWithL as bs

/-- Test that `hay` contains `needle` as a contiguous substring (`str::contains`). -/
def containsSub : Str → Str → Bool
  | [], needle => needle.isEmpty
  | h :: t, needle => startsWithL (h :: t) needle || containsSub t needle

/-- ASCII lower-casing of one character. -/
def asciiLower (c : Char) : Char :=
  if 'A' ≤ c ∧ c ≤ 'Z' then Char.ofNat (c.toNat + 32) else c

/-- Model of `str::to_lowercase` (the identifiers involved are ASCII). -/
def lowerStr (s : Str) : Str := s.map asciiLower

/-- Model of `str::replace("_", "")`. -/
def remUnderscores (s : Str) : Str := s.filter (fun c => c != '_')

/-- The `"minecraft:"` pattern. -/
def nsChars : Str := "minecraft:".data

/-- Fuel-driven repeated prefix stripping; fuel `s.length` suffices since
each round removes ten characters. -/
def stripNSAux : Nat → Str → Str
  | 0, s => s
  | fuel + 1, s =>
    if startsWithL s nsChars then stripNSAux fuel (s.drop nsChars.length) else s

/-- Model of `str::trim_start_matches("minecraft:")`: repeatedly removes the
namespace pattern from the front. -/
def stripNS (s : Str) : Str := stripNSAux s.length s

theorem startsWithL_iff (s p : Str) : startsWithL s p = true ↔ p <+: s := by
  induction p generalizing s with
  | nil => cases s <;> simp [startsWithL, List.nil_prefix]
  | cons b bs ih =>
    cases s with
    | nil => simp [startsWithL]
    | cons a t =>
      simp only [startsWithL, Bool.and_eq_true, decide_eq_true_eq, List.cons_prefix_cons, ih]
      tauto

theorem containsSub_iff (hay needle : Str) :
    containsSub hay needle = true ↔ needle <:+: hay := by
  induction hay with
  | nil => simp [containsSub, List.infix_nil, List.isEmpty_iff]
  | cons h t ih =>
    simp only [containsSub, Bool.or_eq_true, startsWithL_iff, ih, List.infix_cons_iff]

/-! ## Fuzzy block-id comparison (executor.rs lines 455-463)

The Assert branch computes
`expected_name = check.is.trim_start_matches("minecraft:")`,
`expected_lower = expected_name.to_lowercase().replace("_", "")`, and
accepts when `actual_lower.contains(&expected_lower)` or
`actual_lower.replace("_", "").contains(&expected_lower)`, with
`actual_lower = actual.to_lowercase()`. `poll_block_with_retry` (lines
108-124) applies the identical test to decide early exit. -/

/-- The normalised form of the expected identifier: namespace repeatedly
stripped, lower-cased, underscores removed. -/
def expectedKey (expected : Str) : Str := remUnderscores (lowerStr (stripNS expected))

/-- The executor's fuzzy block-id acceptance test. -/
def fuzzyMatch (expected actual : Str) : Bool :=
  containsSub (lowerStr actual) (expectedKey expected) ||
    containsSub (remUnderscores (lowerStr actual)) (expectedKey expected)

/-- Modelled from the spec: the claimed symmetric comparison — strip the
namespace, lower-case, and accept when the underscore-kept or
underscore-removed representation of either string is a substring of the
same representation of the other, in either direction. -/
def specFuzzy (expected observed : Str) : Prop :=
  lowerStr (stripNS expected) <:+: lowerStr (stripNS observed) ∨
  lowerStr (stripNS observed) <:+: lowerStr (stripNS expected) ∨
  remUnderscores (lowerStr (stripNS expected)) <:+: remUnderscores (lowerStr (stripNS observed)) ∨
  remUnderscores (lowerStr (stripNS observed)) <:+: remUnderscores (lowerStr (stripNS expected))

/-- Counterexample for C6: expected `"stone_bricks"` against observed
`"stone"` — the spec's symmetric predicate accepts (the observed string is
a substring of the expected one), but the code's comparison only tests the
expected-inside-observed direction and rejects. -/
theorem fuzzy_comparison_counterexample :
    specFuzzy "stone_bricks".data "stone".data ∧
    fuzzyMatch "stone_bricks".data "stone".data = false := by
  constructor
  · exact Or.inr (Or.inl (by decide))
  · decide

/-- C6 (amended): the fuzzy comparison accepts exactly when the expected
id — `"minecraft:"` prefixes stripped, lower-cased, underscores removed —
is a substring of the lower-cased observed string, taken as-is or with its
underscores removed; only this direction is tested and the observed
string's namespace is never stripped. In particular
`"minecraft:redstone_wire"` matches observed `"RedstoneWireBlock{power=5}"`
and `"oak_planks"` does not match `"stone"`. -/
theorem fuzzy_comparison :
    (∀ e a : Str, fuzzyMatch e a = true ↔
      (expectedKey e <:+: lowerStr a ∨ expectedKey e <:+: remUnderscores (lowerStr a))) ∧
    fuzzyMatch "minecraft:redstone_wire".data "RedstoneWireBlock\x7bpower=5\x7d".data = true ∧
    fuzzyMatch "oak_planks".data "stone".data = false := by
  refine ⟨fun e a => ?_, by decide, by decide⟩
  simp only [fuzzyMatch, Bool.or_eq_true, containsSub_iff]

/-- Witness for C6: the characterisation instantiated at the pair
(`"minecraft:redstone_wire"`, `"RedstoneWireBlock{power=5}"`). -/
theorem fuzzy_comparison_witness :
    expectedKey "minecraft:redstone_wire".data <:+:
        lowerStr "RedstoneWireBlock\x7bpower=5\x7d".data ∨
      expectedKey "minecraft:redstone_wire".data <:+:
        remUnderscores (lowerStr "RedstoneWireBlock\x7bpower=5\x7d".data) :=
  (fuzzy_comparison.1 "minecraft:redstone_wire".data
    "RedstoneWireBlock\x7bpower=5\x7d".data).mp (by decide)

/-! ## Retry-poll engine (executor.rs lines 101-154)

The world queries are modelled by an oracle `Nat → Option Str` giving the
observation the k-th issued query returns (the world evolves between
attempts). Both poll functions are embedded as loops carrying the current
attempt number and the remaining attempts, and return the pair
`(result, number of queries issued)`. -/

/-- The early-exit test inside `poll_block_with_retry` (lines 117-124):
a present observation whose lower-cased form, kept or underscore-removed,
contains the prepared expected key. -/
def matchesKey (key : Str) (block : Option Str) : Bool :=
  match block with
  | some actual =>
    containsSub (lowerStr actual) key || containsSub (remUnderscores (lowerStr actual)) key
  | none => false

/-- The `for attempt in 0..max_attempts` loop of `poll_block_with_retry`,
plus the final `self.bot.get_block` re-query after exhaustion (line 133). -/
def poll_block_loop (oracle : Nat → Option Str) (key : Str) :
    Nat → Nat → Option Str × Nat
  | attempt, 0 => (oracle attempt, attempt + 1)
  | attempt, fuel + 1 =>
    let b := oracle attempt
    if matchesKey key b then (b, attempt + 1)
    else poll_block_loop oracle key (attempt + 1) fuel

/-- Embedding of `poll_block_with_retry` from `executor.rs` lines 101-134. -/
def poll_block_with_retry (oracle : Nat → Option Str) (expected : Str)
    (max_attempts : Nat) : Option Str × Nat :=
  poll_block_loop oracle (expectedKey expected) 0 max_attempts

/-- The loop of `poll_block_state_with_retry` (lines 144-153): stops at the
first present observation, returns `none` after exhaustion. -/
def poll_state_loop (oracle : Nat → Option Str) : Nat → Nat → Option Str × Nat
  | attempt, 0 => (none, attempt)
  | attempt, fuel + 1 =>
    match oracle attempt with
    | some v => (some v, attempt + 1)
    | none => poll_state_loop oracle (attempt + 1) fuel

/-- Embedding of `poll_block_state_with_retry` from `executor.rs` lines 137-154. -/
def poll_block_state_with_retry (oracle : Nat → Option Str)
    (max_attempts : Nat) : Option Str × Nat :=
  poll_state_loop oracle 0 max_attempts

/-- Counterexample for C5: against an oracle that always answers
`some "stone"` with expected block `"dirt"` and `maxAttempts = 10`, the
block-lookup variant issues 11 queries — the 10 loop attempts plus the
final re-query — exceeding the claimed bound of 10. -/
theorem retry_poll_counterexample :
    (poll_block_with_retry (fun _ => some "stone".data) "dirt".data 10).2 = 11 := by
  decide

theorem poll_block_loop_queries (oracle : Nat → Option Str) (key : Str) :
    ∀ fuel attempt, (poll_block_loop oracle key attempt fuel).2 ≤ attempt + fuel + 1 := by
  intro fuel
  induction fuel with
  | zero => intro attempt; simp [poll_block_loop]
  | succ n ih =>
    intro attempt
    simp only [poll_block_loop]
    split
    · omega
    · have := ih (attempt + 1)
      omega

theorem poll_state_loop_queries (oracle : Nat → Option Str) :
    ∀ fuel attempt, (poll_state_loop oracle attempt fuel).2 ≤ attempt + fuel := by
  intro fuel
  induction fuel with
  | zero => intro attempt; simp [poll_state_loop]
  | succ n ih =>
    intro attempt
    simp only [poll_state_loop]
    split
    · omega
    · have := ih (attempt + 1)
      omega

theorem poll_block_loop_hit (oracle : Nat → Option Str) (key : Str) :
    ∀ fuel attempt k, attempt ≤ k → k < attempt + fuel →
      matchesKey key (oracle k) = true →
      (∀ j, attempt ≤ j → j < k → matchesKey key (oracle j) = false) →
      poll_block_loop oracle key attempt fuel = (oracle k, k + 1) := by
  intro fuel
  induction fuel with
  | zero => intro attempt k h1 h2; omega
  | succ n ih =>
    intro attempt k h1 h2 hk hpre
    simp only [poll_block_loop]
    by_cases heq : attempt = k
    · subst heq
      rw [hk, if_pos rfl]
    · have hlt : attempt < k := by omega
      rw [hpre attempt le_rfl hlt, if_neg (by simp)]
      exact ih (attempt + 1) k (by omega) (by omega) hk (fun j hj1 hj2 => hpre j (by omega) hj2)

theorem poll_block_loop_exhaust (oracle : Nat → Option Str) (key : Str) :
    ∀ fuel attempt,
      (∀ j, attempt ≤ j → j < attempt + fuel → matchesKey key (oracle j) = false) →
      poll_block_loop oracle key attempt fuel = (oracle (attempt + fuel), attempt + fuel + 1) := by
  intro fuel
  induction fuel with
  | zero => intro attempt _; simp [poll_block_loop]
  | succ n ih =>
    intro attempt hall
    simp only [poll_block_loop]
    rw [hall attempt le_rfl (by omega), if_neg (by simp),
      ih (attempt + 1) (fun j hj1 hj2 => hall j (by omega) (by omega)),
      show attempt + 1 + n = attempt + (n + 1) by omega]

theorem poll_state_loop_hit (oracle : Nat → Option Str) :
    ∀ fuel attempt k v, attempt ≤ k → k < attempt + fuel →
      oracle k = some v →
      (∀ j, attempt ≤ j → j < k → oracle j = none) →
      poll_state_loop oracle attempt fuel = (some v, k + 1) := by
  intro fuel
  induction fuel with
  | zero => intro attempt k v h1 h2; omega
  | succ n ih =>
    intro attempt k v h1 h2 hk hpre
    simp only [poll_state_loop]
    by_cases heq : attempt = k
    · subst heq
      rw [hk]
    · have hlt : attempt < k := by omega
      rw [hpre attempt le_rfl hlt]
      exact ih (attempt + 1) k v (by omega) (by omega) hk (fun j hj1 hj2 => hpre j (by omega) hj2)

theorem poll_state_loop_exhaust (oracle : Nat → Option Str) :
    ∀ fuel attempt,
      (∀ j, attempt ≤ j → j < attempt + fuel → oracle j = none) →
      poll_state_loop oracle attempt fuel = (none, attempt + fuel) := by
  intro fuel
  induction fuel with
  | zero => intro attempt _; simp [poll_state_loop]
  | succ n ih =>
    intro attempt hall
    simp only [poll_state_loop]
    rw [hall attempt le_rfl (by omega),
      ih (attempt + 1) (fun j hj1 hj2 => hall j (by omega) (by omega)),
      show attempt + 1 + n = attempt + (n + 1) by omega]

/-- C5 (amended): the block-lookup variant issues at most `maxAttempts + 1`
queries — up to `maxAttempts` in the loop plus one final re-query on
exhaustion — stopping early at the first observation that fuzzily matches
the expected block and returning it; on exhaustion it returns the extra
final observation. The state-property variant issues at most `maxAttempts`
queries, stops early at the first present observation regardless of its
value, and returns `none` on exhaustion. -/
theorem retry_poll_behavior :
    (∀ (oracle : Nat → Option Str) (expected : Str) (m : Nat),
      (poll_block_with_retry oracle expected m).2 ≤ m + 1 ∧
      (poll_block_state_with_retry oracle m).2 ≤ m) ∧
    (∀ (oracle : Nat → Option Str) (expected : Str) (m k : Nat), k < m →
      matchesKey (expectedKey expected) (oracle k) = true →
      (∀ j < k, matchesKey (expectedKey expected) (oracle j) = false) →
      poll_block_with_retry oracle expected m = (oracle k, k + 1)) ∧
    (∀ (oracle : Nat → Option Str) (expected : Str) (m : Nat),
      (∀ j < m, matchesKey (expectedKey expected) (oracle j) = false) →
      poll_block_with_retry oracle expected m = (oracle m, m + 1)) ∧
    (∀ (oracle : Nat → Option Str) (m k : Nat) (v : Str), k < m →
      oracle k = some v → (∀ j < k, oracle j = none) →
      poll_block_state_with_retry oracle m = (some v, k + 1)) ∧
    (∀ (oracle : Nat → Option Str) (m : Nat), (∀ j < m, oracle j = none) →
      poll_block_state_with_retry oracle m = (none, m)) := by
  refine ⟨fun oracle expected m => ⟨?_, ?_⟩, ?_, ?_, ?_, ?_⟩
  · have := poll_block_loop_queries oracle (expectedKey expected) m 0
    simpa [poll_block_with_retry] using this
  · have := poll_state_loop_queries oracle m 0
    simpa [poll_block_state_with_retry] using this
  · intro oracle expected m k hk hm hpre
    exact poll_block_loop_hit oracle (expectedKey expected) m 0 k (by omega) (by omega) hm
      (fun j _ hj => hpre j hj)
  · intro oracle expected m hall
    have := poll_block_loop_exhaust oracle (expectedKey expected) m 0
      (fun j _ hj => hall j (by omega))
    simpa [poll_block_with_retry] using this
  · intro oracle m k v hk hv hpre
    exact poll_state_loop_hit oracle m 0 k v (by omega) (by omega) hv (fun j _ hj => hpre j hj)
  · intro oracle m hall
    have := poll_state_loop_exhaust oracle m 0 (fun j _ hj => hall j (by omega))
    simpa [poll_block_state_with_retry] using this

/-- Oracle whose block observation only becomes correct on the third
attempt. -/
def thirdTryOracle : Nat → Option Str :=
  fun n => if n < 2 then some "dirt".data else some "redstone_wire".data

/-- Witness for C5: against `thirdTryOracle` with expected
`"redstone_wire"` and `maxAttempts = 10`, the block poll returns the
matching observation after exactly 3 queries. -/
theorem retry_poll_behavior_witness :
    poll_block_with_retry thirdTryOracle "redstone_wire".data 10 =
      (some "redstone_wire".data, 3) :=
  retry_poll_behavior.2.1 thirdTryOracle "redstone_wire".data 10 2 (by decide)
    (by decide) (by decide)

/-! ## The AssertState values-length invariant (C7)

`executor.rs` line 491 indexes `values[value_idx]` with the positional
index produced by tick expansion, relying on the documented invariant that
a `TickSpec` listing N ticks comes with at least N values. `validate`
(test_spec.rs lines 123-195) never checks this: for `AssertState` it only
validates the position. -/

/-- Modelled from the spec's §3 invariant: every AssertState entry has at
least as many values as its TickSpec has ticks. -/
def valuesCoverTicks (e : TimelineEntry) : Bool :=
  match e.action with
  | .assertState _ _ values => e.at_.to_vec.length ≤ values.length
  | _ => true

/-- Spec whose AssertState entry schedules two ticks but carries a single
value; its one referenced coordinate lies inside the cleanup region. -/
def shortValuesSpec : TestSpec :=
  { name := "s".data
    setup := some (⟨0, 0, 0⟩, ⟨0, 0, 0⟩)
    timeline := [{ at_ := .multiple [0, 1]
                   action := .assertState ⟨0, 0, 0⟩ "power".data ["0".data] }] }

/-- C7 fails on the code: `validate` accepts `shortValuesSpec` although its
AssertState entry lists 2 ticks against 1 value, and tick expansion then
produces the scheduled pair `(tick 1, valueIndex 1)`, whose value index is
out of bounds for the 1-element values list — the executor's
`values[value_idx]` lookup would panic there. -/
theorem assertstate_values_unchecked :
    validate shortValuesSpec = .ok () ∧
    shortValuesSpec.timeline.all valuesCoverTicks = false ∧
    (expand (TickSpec.multiple [0, 1])).get? 1 = some (1, 1) ∧
    ("0".data :: []).length = 1 := by
  refine ⟨by decide, by decide, by decide, rfl⟩

/-! ## Timeline merge and execution order (executor.rs lines 160-294)

The merged global timeline is a `HashMap<u32, Vec<_>>`; for each tick key
the per-tick `Vec` receives pushes in program order: outer loop ascending
test index, inner loop over that test's timeline entries in declaration
order, innermost loop over the entry's expanded ticks in list order
(executor.rs lines 176-196). `scheduledAt tests tick` reproduces that
per-tick push order, with entries identified by `(testIdx, entryIdx,
valueIdx)`. The tick loop (lines 246-294) then executes tick 0 through the
maximal tick sequentially, running each tick's vector front to back before
stepping the world clock; `trace` is the resulting flat execution order. -/

/-- Embedding of `TestSpec::max_tick` from `test_spec.rs` lines 108-114. -/
def max_tick (s : TestSpec) : Nat :=
  (s.timeline.flatMap (fun e => e.at_.to_vec)).foldr max 0

/-- The executor's running maximum over all tests (lines 176-180). -/
def maxGlobalTick (tests : List TestSpec) : Nat :=
  (tests.map max_tick).foldr max 0

/-- The per-tick vector of the merged global timeline, in push order:
triples `(testIdx, entryIdx, valueIdx)`. -/
def scheduledAt (tests : List TestSpec) (tick : Nat) : List (Nat × Nat × Nat) :=
  tests.enum.flatMap (fun tp =>
    tp.2.timeline.enum.flatMap (fun ep =>
      ep.2.at_.to_vec.enum.filterMap (fun vp =>
        if vp.2 = tick then some (tp.1, ep.1, vp.1) else none)))

/-- The flat execution order of the tick loop: ticks `0..=maxGlobalTick`
in order, each tick's scheduled actions front to back, tagged with their
tick. -/
def trace (tests : List TestSpec) : List (Nat × Nat × Nat × Nat) :=
  (List.range (maxGlobalTick tests + 1)).flatMap (fun t =>
    (scheduledAt tests t).map (fun a => (t, a)))

/-- Strict lexicographic order on `(testIdx, entryIdx, valueIdx)`. -/
def schedLt (a b : Nat × Nat × Nat) : Prop :=
  a.1 < b.1 ∨ (a.1 = b.1 ∧ (a.2.1 < b.2.1 ∨ (a.2.1 = b.2.1 ∧ a.2.2 < b.2.2)))

/-- Trace elements ordered by their tick tag. -/
def tickLe (a b : Nat × Nat × Nat × Nat) : Prop := a.1 ≤ b.1

theorem tag_ge_of_mem_enumFrom_flatMap {α β : Type} (f : Nat × α → List β)
    (tag : β → Nat) (hf : ∀ i x, ∀ b ∈ f (i, x), tag b = i) :
    ∀ (l : List α) (n : Nat) (b : β), b ∈ (List.enumFrom n l).flatMap f → n ≤ tag b := by
  intro l
  induction l with
  | nil => intro n b hb; simp at hb
  | cons x xs ih =>
    intro n b hb
    rw [List.enumFrom_cons, List.flatMap_cons] at hb
    rcases List.mem_append.mp hb with h | h
    · exact le_of_eq (hf n x b h).symm
    · exact Nat.le_of_succ_le (ih (n + 1) b h)

theorem pairwise_enumFrom_flatMap {α β : Type} (R : β → β → Prop)
    (f : Nat × α → List β) (tag : β → Nat)
    (hf : ∀ i x, ∀ b ∈ f (i, x), tag b = i)
    (hR : ∀ i x, List.Pairwise R (f (i, x))) :
    ∀ (l : List α) (n : Nat),
      List.Pairwise (fun a b => tag a < tag b ∨ (tag a = tag b ∧ R a b))
        ((List.enumFrom n l).flatMap f) := by
  intro l
  induction l with
  | nil => intro n; simp
  | cons x xs ih =>
    intro n
    rw [List.enumFrom_cons, List.flatMap_cons]
    rw [List.pairwise_append]
    refine ⟨?_, ih (n + 1), ?_⟩
    · exact (hR n x).imp_of_mem (fun ha hb hr =>
        Or.inr ⟨by rw [hf n x _ ha, hf n x _ hb], hr⟩)
    · intro a ha b hb
      have h1 : tag a = n := hf n x a ha
      have h2 : n + 1 ≤ tag b := tag_ge_of_mem_enumFrom_flatMap f tag hf xs (n + 1) b hb
      exact Or.inl (by omega)

theorem tag_ge_of_mem_enumFrom_filterMap {α β : Type} (g : Nat × α → Option β)
    (tag : β → Nat) (hg : ∀ i x b, g (i, x) = some b → tag b = i) :
    ∀ (l : List α) (n : Nat) (b : β), b ∈ (List.enumFrom n l).filterMap g → n ≤ tag b := by
  intro l
  induction l with
  | nil => intro n b hb; simp at hb
  | cons x xs ih =>
    intro n b hb
    rw [List.enumFrom_cons, List.filterMap_cons] at hb
    rcases hx : g (n, x) with c | c
    · rw [hx] at hb
      exact Nat.le_of_succ_le (ih (n + 1) b hb)
    · rw [hx] at hb
      rcases List.mem_cons.mp hb with rfl | h
      · exact le_of_eq (hg n x b hx).symm
      · exact Nat.le_of_succ_le (ih (n + 1) b h)

theorem pairwise_enumFrom_filterMap {α β : Type} (g : Nat × α → Option β)
    (tag : β → Nat) (hg : ∀ i x b, g (i, x) = some b → tag b = i) :
    ∀ (l : List α) (n : Nat),
      List.Pairwise (fun a b => tag a < tag b) ((List.enumFrom n l).filterMap g) := by
  intro l
  induction l with
  | nil => intro n; simp
  | cons x xs ih =>
    intro n
    rw [List.enumFrom_cons, List.filterMap_cons]
    rcases hx : g (n, x) with c | c
    · exact ih (n + 1)
    · refine List.Pairwise.cons ?_ (ih (n + 1))
      intro b hb
      have h1 : tag c = n := hg n x c hx
      have h2 : n + 1 ≤ tag b := tag_ge_of_mem_enumFrom_filterMap g tag hg xs (n + 1) b hb
      omega

theorem pairwise_range_flatMap {β : Type} (f : Nat → List β) (tag : β → Nat)
    (hf : ∀ t, ∀ b ∈ f t, tag b = t) :
    ∀ n : Nat, List.Pairwise (fun a b => tag a ≤ tag b) ((List.range n).flatMap f) := by
  intro n
  induction n with
  | zero => simp
  | succ m ih =>
    rw [List.range_succ, List.flatMap_append]
    rw [List.pairwise_append]
    refine ⟨ih, ?_, ?_⟩
    · simp only [List.flatMap_cons, List.flatMap_nil, List.append_nil]
      exact List.pairwise_of_forall_mem_list
        (fun a ha b hb => by rw [hf m a ha, hf m b hb])
    · intro a ha b hb
      simp only [List.flatMap_cons, List.flatMap_nil, List.append_nil] at hb
      obtain ⟨t, ht, hat⟩ := List.mem_flatMap.mp ha
      have h1 : tag a = t := hf t a hat
      have h2 : tag b = m := hf m b hb
      have h3 : t < m := List.mem_range.mp ht
      omega

/-- C8: execution order is deterministic. Within any single tick, the
per-tick vector of the merged timeline is strictly sorted by owning test
index, then by declaration order of the owning entry, then by value
position — so same-tick actions run in ascending test order and, within a
test, in declaration order. Across ticks, the flat execution trace is
monotone in the tick tag: every action of tick `t` precedes every action
of any later tick. -/
theorem execution_order_deterministic :
    (∀ (tests : List TestSpec) (tick : Nat),
      List.Pairwise schedLt (scheduledAt tests tick)) ∧
    (∀ tests : List TestSpec, List.Pairwise tickLe (trace tests)) := by
  constructor
  · intro tests tick
    have hinner : ∀ (ti ei : Nat) (e : TimelineEntry),
        List.Pairwise (fun a b : Nat × Nat × Nat => a.2.2 < b.2.2)
          ((List.enumFrom 0 e.at_.to_vec).filterMap (fun vp =>
            if vp.2 = tick then some (ti, ei, vp.1) else none)) := by
      intro ti ei e
      exact pairwise_enumFrom_filterMap
        (fun vp => if vp.2 = tick then some (ti, ei, vp.1) else none)
        (fun b => b.2.2)
        (fun i x b hb => by
          by_cases hx : x = tick <;> simp [hx] at hb
          rw [← hb]) e.at_.to_vec 0
    have hmid : ∀ (ti : Nat) (t : TestSpec),
        List.Pairwise (fun a b : Nat × Nat × Nat =>
          a.2.1 < b.2.1 ∨ (a.2.1 = b.2.1 ∧ a.2.2 < b.2.2))
          ((List.enumFrom 0 t.timeline).flatMap (fun ep =>
            (List.enumFrom 0 ep.2.at_.to_vec).filterMap (fun vp =>
              if vp.2 = tick then some (ti, ep.1, vp.1) else none))) := by
      intro ti t
      exact pairwise_enumFrom_flatMap
        (fun a b : Nat × Nat × Nat => a.2.2 < b.2.2)
        (fun ep => (List.enumFrom 0 ep.2.at_.to_vec).filterMap (fun vp =>
          if vp.2 = tick then some (ti, ep.1, vp.1) else none))
        (fun b => b.2.1)
        (fun i x b hb => by
          obtain ⟨vp, hvp, hb2⟩ := List.mem_filterMap.mp hb
          by_cases hx : vp.2 = tick <;> simp [hx] at hb2
          rw [← hb2])
        (fun i x => hinner ti i x) t.timeline 0
    have houter := pairwise_enumFrom_flatMap
      (fun a b : Nat × Nat × Nat => a.2.1 < b.2.1 ∨ (a.2.1 = b.2.1 ∧ a.2.2 < b.2.2))
      (fun tp : Nat × TestSpec => (List.enumFrom 0 tp.2.timeline).flatMap (fun ep =>
        (List.enumFrom 0 ep.2.at_.to_vec).filterMap (fun vp =>
          if vp.2 = tick then some (tp.1, ep.1, vp.1) else none)))
      (fun b => b.1)
      (fun i x b hb => by
        obtain ⟨ep, hep, hb2⟩ := List.mem_flatMap.mp hb
        obtain ⟨vp, hvp, hb3⟩ := List.mem_filterMap.mp hb2
        by_cases hx : vp.2 = tick <;> simp [hx] at hb3
        rw [← hb3])
      (fun i x => hmid i x) tests 0
    simpa [scheduledAt, schedLt, List.enum_eq_enumFrom] using houter
  · intro tests
    exact pairwise_range_flatMap
      (fun t => (scheduledAt tests t).map (fun a => (t, a)))
      (fun b => b.1)
      (fun t b hb => by
        obtain ⟨a, _, hb2⟩ := List.mem_map.mp hb
        rw [← hb2]) (maxGlobalTick tests + 1)

/-! ## Per-test tallying and run results (executor.rs lines 243-346)

The tick loop matches each `execute_action` result: `Ok(true)` increments
the owning test's pass counter, `Ok(false)` (a non-assertion action) leaves
the counters alone, `Err(_)` increments the owning test's fail counter and
the loop continues with the next scheduled action. At the end, each test's
result is `success = failed == 0`. Outcomes depend on the live world, so
they are modelled by an oracle mapping each scheduled action (tagged with
its tick) to its outcome. -/

/-- The three outcomes of `execute_action` as matched by the tick loop. -/
inductive Outcome where
  | pass
  | info
  | fail
deriving DecidableEq

/-- One iteration of the tally: `Ok(true)` bumps `passed`, `Err` bumps
`failed`, `Ok(false)` changes nothing (executor.rs lines 252-272). -/
def bump (counts : List (Nat × Nat)) (i : Nat) : Outcome → List (Nat × Nat)
  | .pass => counts.set i ((counts.getD i (0, 0)).1 + 1, (counts.getD i (0, 0)).2)
  | .info => counts
  | .fail => counts.set i ((counts.getD i (0, 0)).1, (counts.getD i (0, 0)).2 + 1)

/-- The full run's `(passed, failed)` tally per test: fold the execution
trace over `bump`, starting from `vec![(0, 0); tests.len()]`. -/
def runTally (tests : List TestSpec) (outcome : Nat × Nat × Nat × Nat → Outcome) :
    List (Nat × Nat) :=
  (trace tests).foldl (fun counts a => bump counts a.2.1 (outcome a))
    (List.replicate tests.length (0, 0))

/-- The built results (executor.rs lines 314-346): per test its name and
`success = failed == 0`. -/
def run_results (tests : List TestSpec) (outcome : Nat × Nat × Nat × Nat → Outcome) :
    List (Str × Bool) :=
  (List.enumFrom 0 tests).map
    (fun tp => (tp.2.name, ((runTally tests outcome).getD tp.1 (0, 0)).2 == 0))

theorem tally_fold {A : Type} (own : A → Nat) (out : A → Outcome) :
    ∀ (acts : List A) (counts : List (Nat × Nat)) (i : Nat) (c : Nat × Nat),
      counts[i]? = some c →
      (acts.foldl (fun cs a => bump cs (own a) (out a)) counts)[i]? =
        some (c.1 + (acts.filter (fun a => own a == i && (out a == Outcome.pass))).length,
              c.2 + (acts.filter (fun a => own a == i && (out a == Outcome.fail))).length) := by
  intro acts
  induction acts with
  | nil => intro counts i c hc; simpa using hc
  | cons a acts ih =>
    intro counts i c hc
    have hlen : i < counts.length := (List.getElem?_eq_some.mp hc).1
    by_cases hown : own a = i
    · have hgd : counts.getD (own a) (0, 0) = c := by
        rw [List.getD_eq_getElem?_getD, hown, hc]
        rfl
      cases hout : out a with
      | pass =>
        have hstep := ih (bump counts (own a) .pass) i (c.1 + 1, c.2)
          (by rw [bump, hgd, hown, List.getElem?_set_self (by omega)])
        simp only [List.foldl_cons, List.filter_cons]
        rw [hout, hstep]
        simp only [hown, beq_self_eq_true, Bool.and_self, if_true, List.length_cons,
          Option.some.injEq, Prod.mk.injEq]
        have hpf : (Outcome.pass == Outcome.fail) = false := rfl
        refine ⟨by omega, by simp [hpf]⟩
      | info =>
        have hstep := ih counts i c hc
        simp only [List.foldl_cons, List.filter_cons]
        rw [hout]
        rw [show bump counts (own a) Outcome.info = counts from rfl, hstep]
        have hip : (Outcome.info == Outcome.pass) = false := rfl
        have hif : (Outcome.info == Outcome.fail) = false := rfl
        simp [hown, hip, hif]
      | fail =>
        have hstep := ih (bump counts (own a) .fail) i (c.1, c.2 + 1)
          (by rw [bump, hgd, hown, List.getElem?_set_self (by omega)])
        simp only [List.foldl_cons, List.filter_cons]
        rw [hout, hstep]
        simp only [hown, beq_self_eq_true, Bool.and_self, if_true, List.length_cons,
          Option.some.injEq, Prod.mk.injEq]
        have hfp : (Outcome.fail == Outcome.pass) = false := rfl
        refine ⟨by simp [hfp], by omega⟩
    · have hbump : (bump counts (own a) (out a))[i]? = some c := by
        cases out a <;> simp [bump, List.getElem?_set_ne hown, hc]
      have hstep := ih (bump counts (own a) (out a)) i c hbump
      have hfilt : (own a == i) = false := by simp [hown]
      simp only [List.foldl_cons, List.filter_cons, hfilt, Bool.false_and, if_false]
      exact hstep

/-- C9: failures are isolated per test and aggregated exactly. For every
run, test `i`'s tally is precisely (number of its scheduled actions whose
outcome is a pass, number whose outcome is a failure) — counts over the
full execution trace, so every scheduled action of every test is processed
regardless of other tests' failures, and a failure touches no other test's
counters; and the built result for test `i` is its name with
`success = (its failure count == 0)`. -/
theorem failure_isolation :
    ∀ (tests : List TestSpec) (outcome : Nat × Nat × Nat × Nat → Outcome)
      (i : Nat) (tst : TestSpec), tests[i]? = some tst →
      (runTally tests outcome)[i]? =
        some (((trace tests).filter
                 (fun a => a.2.1 == i && (outcome a == Outcome.pass))).length,
              ((trace tests).filter
                 (fun a => a.2.1 == i && (outcome a == Outcome.fail))).length) ∧
      (run_results tests outcome)[i]? =
        some (tst.name,
          ((trace tests).filter
            (fun a => a.2.1 == i && (outcome a == Outcome.fail))).length == 0) := by
  intro tests outcome i tst htst
  have hlen : i < tests.length := (List.getElem?_eq_some.mp htst).1
  have hrep : (List.replicate tests.length ((0, 0) : Nat × Nat))[i]? = some (0, 0) := by
    rw [List.getElem?_replicate, if_pos hlen]
  have htally := tally_fold (fun a : Nat × Nat × Nat × Nat => a.2.1) outcome
    (trace tests) (List.replicate tests.length (0, 0)) i (0, 0) hrep
  simp only [Nat.zero_add] at htally
  refine ⟨htally, ?_⟩
  rw [run_results, List.getElem?_map, List.getElem?_enumFrom, htst]
  simp only [Option.map_some', Nat.zero_add, Option.some.injEq, Prod.mk.injEq]
  refine ⟨by trivial, ?_⟩
  rw [List.getD_eq_getElem?_getD, runTally, htally]
  rfl

/-- Two-test demonstration pair: test `"A"`'s single assertion will fail,
test `"B"`'s will pass. -/
def demoA : TestSpec :=
  { name := "A".data
    setup := some (⟨0, 0, 0⟩, ⟨1, 0, 1⟩)
    timeline := [{ at_ := .single 0, action := .assert [⟨⟨0, 0, 0⟩, "stone".data⟩] }] }

/-- Companion test for the demonstration run. -/
def demoB : TestSpec :=
  { name := "B".data
    setup := some (⟨0, 0, 0⟩, ⟨1, 0, 1⟩)
    timeline := [{ at_ := .single 0, action := .assert [⟨⟨1, 0, 1⟩, "stone".data⟩] }] }

/-- Outcome oracle for the demonstration run: every action owned by test 0
fails, every other action passes. -/
def demoOutcome : Nat × Nat × Nat × Nat → Outcome :=
  fun a => if a.2.1 = 0 then .fail else .pass

/-- Witness for C9: in the two-test run where `"A"`'s single assertion
fails and `"B"`'s passes, `"A"` tallies (0 passed, 1 failed) and is
reported failed while `"B"` tallies (1, 0) and is reported passed. -/
theorem failure_isolation_witness :
    (runTally [demoA, demoB] demoOutcome)[0]? = some (0, 1) ∧
    (run_results [demoA, demoB] demoOutcome)[0]? = some ("A".data, false) ∧
    (runTally [demoA, demoB] demoOutcome)[1]? = some (1, 0) ∧
    (run_results [demoA, demoB] demoOutcome)[1]? = some ("B".data, true) := by
  have h0 := failure_isolation [demoA, demoB] demoOutcome 0 demoA rfl
  have h1 := failure_isolation [demoA, demoB] demoOutcome 1 demoB rfl
  exact ⟨h0.1, h0.2, h1.1, h1.2⟩

/-- Witness for C8: the ordering guarantees instantiated on the concrete
two-test run sharing tick 0. -/
theorem execution_order_deterministic_witness :
    List.Pairwise schedLt (scheduledAt [demoA, demoB] 0) ∧
    List.Pairwise tickLe (trace [demoA, demoB]) :=
  ⟨execution_order_deterministic.1 [demoA, demoB] 0,
    execution_order_deterministic.2 [demoA, demoB]⟩

/-! ## Offset application (executor.rs lines 95-97 and 349-528)

`apply_offset` is component-wise addition; `execute_action` applies it to
every position before building a world command or query, and the
setup/teardown cleanup fills apply it to the region corners the same way. -/

/-- Embedding of `TestExecutor::apply_offset` from `executor.rs` lines 95-97. -/
def apply_offset (pos offset : Vec3) : Vec3 :=
  ⟨pos.x + offset.x, pos.y + offset.y, pos.z + offset.z⟩

/-- The world positions `execute_action` sends to the world-control
channel for one action, in emission order (executor.rs lines 349-528). -/
def actionWorldPositions (a : ActionType) (offset : Vec3) : List Vec3 :=
  match a with
  | .place pos _ => [apply_offset pos offset]
  | .placeEach blocks => blocks.map (fun b => apply_offset b.pos offset)
  | .fill region _ => [apply_offset region.1 offset, apply_offset region.2 offset]
  | .remove pos => [apply_offset pos offset]
  | .assert checks => checks.map (fun c => apply_offset c.pos offset)
  | .assertState pos _ _ => [apply_offset pos offset]

/-- C10: every computed test offset has a zero y component and offset
application is component-wise addition, so the y-coordinate of every
world position an action sends to the world-control channel equals the
declared y-coordinate — offsets only translate tests in the x/z plane.
The same holds for any single position (covering the cleanup fills on the
region corners). -/
theorem offset_preserves_y :
    (∀ i t : Nat, (calculate_test_offset i t).y = 0) ∧
    (∀ (p : Vec3) (i t : Nat), (apply_offset p (calculate_test_offset i t)).y = p.y) ∧
    (∀ (a : ActionType) (i t : Nat),
      (actionWorldPositions a (calculate_test_offset i t)).map Vec3.y =
        (entryPositions a).map Vec3.y) := by
  have hy : ∀ i t : Nat, (calculate_test_offset i t).y = 0 := fun i t => rfl
  have hp : ∀ (p : Vec3) (i t : Nat), (apply_offset p (calculate_test_offset i t)).y = p.y := by
    intro p i t
    simp [apply_offset, hy]
  refine ⟨hy, hp, ?_⟩
  intro a i t
  cases a <;> simp [actionWorldPositions, entryPositions, hp]

end FlintMC
